import Mathlib

/-!
Verification of the hyperparameter sweep and best-model-selection
procedure of the ML_kaggle_competition notebooks.

The notebooks repeat one piece of structured logic: a grid-search loop
that configures an estimator for each hyperparameter combination, fits
it, reads back a scalar score and keeps the best (combination, score)
pair seen so far.  We embed each variant of that loop as a fold over the
list of (combination, score) pairs:

* `baggingSweep` embeds the bagging grid-search loop
  (`best_score = 0.5`; `if bag.oob_score_ > best_score:
  best_score = ...; best_params = g`), which updates both the comparison
  variable and the retained parameters;
* `rfSweep` embeds the random-forest grid-search loop, which compares
  against `best_score` but assigns the separately named
  `best_rfc_score` / `best_rfc_params`, so the comparison threshold is
  never updated inside the loop;
* `boostSweep` embeds the boosted-tree grid-search loop, which reads
  `boost.score(X_train, y_train)` — the score on the training set — for
  the comparison, while the bagging loop reads the out-of-bag score;
* `writeSubmission` embeds the submission-CSV cell of the XGBoost
  notebook (`writer.writerow(['Id', 'subscription'])`, then one row
  `[i, y_REAL_test[i]]` per prediction index `i`).

Scores are floats in the source; only order and equality of scores
matter to the control flow, so they are embedded as rationals.
Combination values stay abstract (a type parameter `P`).
-/

namespace MLSweep

variable {P : Type}

/-- Best-so-far state of the bagging/boosting grid-search loops: the
retained parameter combination (unset before the first improvement,
hence an `Option`) and the comparison score, initialized to the floor. -/
@[ext]
structure SweepState (P : Type) where
  best_params : Option P
  best_score : ℚ
  deriving DecidableEq

/-- One iteration of the bagging loop body on an already fitted
(combination, score) pair: `if score > best_score: best_score = score;
best_params = g`. -/
def sweepStep (s : SweepState P) (x : P × ℚ) : SweepState P :=
  if x.2 > s.best_score then { best_params := some x.1, best_score := x.2 } else s

/-- Loop state before the first iteration: `best_score = floor` (0.5 in
the source) and `best_params` not yet assigned. -/
def sweepInit (floor : ℚ) : SweepState P :=
  { best_params := none, best_score := floor }

/-- The bagging grid-search loop over a list of (combination, score)
pairs. -/
def baggingSweep (floor : ℚ) (l : List (P × ℚ)) : SweepState P :=
  l.foldl sweepStep (sweepInit floor)

/-- The bagging grid-search loop together with the trace of `fit`
invocations: each iteration of the loop body calls `bag.fit` exactly
once, on the combination currently set, before reading the score. -/
def baggingSweepFits (floor : ℚ) (l : List (P × ℚ)) : SweepState P × List P :=
  l.foldl (fun a x => (sweepStep a.1 x, a.2 ++ [x.1])) (sweepInit floor, [])

/-- The sweep viewed as a function of the score oracle: the grid of
combinations together with the score each fitted estimator reports. -/
def runSweep (floor : ℚ) (grid : List P) (score : P → ℚ) : SweepState P :=
  baggingSweep floor (grid.map fun g => (g, score g))

/-- The running maximum that the loop's comparison variable tracks. -/
def maxScore (floor : ℚ) (l : List (P × ℚ)) : ℚ :=
  l.foldl (fun m x => max m x.2) floor

/-- State of the random-forest grid-search loop.  The source compares
against `best_score` (initialized to 0.5) but assigns the separately
named `best_rfc_score` and `best_rfc_params`, which are unbound before
the first successful comparison. -/
@[ext]
structure RFState (P : Type) where
  best_score : ℚ
  best_rfc_score : Option ℚ
  best_rfc_params : Option P
  deriving DecidableEq

/-- One iteration of the random-forest loop body:
`if rfc.oob_score_ > best_score: best_rfc_score = rfc.oob_score_;
best_rfc_params = rfg`.  Note that `best_score` itself is not
reassigned. -/
def rfStep (s : RFState P) (x : P × ℚ) : RFState P :=
  if x.2 > s.best_score then
    { s with best_rfc_score := some x.2, best_rfc_params := some x.1 }
  else s

/-- The random-forest grid-search loop, with the source's initial
threshold `best_score = 0.5`. -/
def rfSweep (l : List (P × ℚ)) : RFState P :=
  l.foldl rfStep { best_score := 1/2, best_rfc_score := none, best_rfc_params := none }

/-- The scores observable on a fitted estimator for a given
combination: the score on the training set itself
(`boost.score(X_train, y_train)`) and the out-of-bag validation score
(`oob_score_`). -/
structure FittedScores (P : Type) where
  score_on_train : P → ℚ
  oob_score : P → ℚ

/-- The boosted-tree grid-search loop: same control flow as the bagging
loop, but the score it reads and compares is
`boost.score(X_train, y_train)` — the training-set score. -/
def boostSweep (floor : ℚ) (grid : List P) (e : FittedScores P) : SweepState P :=
  baggingSweep floor (grid.map fun bg => (bg, e.score_on_train bg))

/-- The submission CSV: a header pair followed by one (id, label) row
per prediction. -/
structure SubmissionCsv where
  header : String × String
  rows : List (Nat × Nat)
  deriving DecidableEq

/-- The submission-writer cell of the XGBoost notebook:
`writer.writerow(['Id', 'subscription'])`, then
`for i in range(len(y_REAL_test)): writer.writerow([i, y_REAL_test[i]])`. -/
def writeSubmission (y_REAL_test : List Nat) : SubmissionCsv :=
  { header := ("Id", "subscription"),
    rows := (List.range y_REAL_test.length).map fun i => (i, y_REAL_test.getD i 0) }

/-! ### Basic lemmas about the bagging loop -/

theorem foldl_sweepStep_best_score (l : List (P × ℚ)) (s : SweepState P) :
    (l.foldl sweepStep s).best_score = maxScore s.best_score l := by
  induction l generalizing s with
  | nil => rfl
  | cons x l ih =>
    simp only [List.foldl_cons, maxScore, sweepStep]
    by_cases h : x.2 > s.best_score
    · simp only [h, if_pos]
      have : max s.best_score x.2 = x.2 := max_eq_right h.le
      rw [ih]
      simp [maxScore, this]
    · simp only [h, if_neg, not_false_iff]
      have : max s.best_score x.2 = s.best_score := max_eq_left (le_of_not_lt h)
      rw [ih]
      simp [maxScore, this]

theorem foldl_sweepStep_of_forall_le (l : List (P × ℚ)) (s : SweepState P)
    (h : ∀ x ∈ l, x.2 ≤ s.best_score) : l.foldl sweepStep s = s := by
  induction l with
  | nil => rfl
  | cons x l ih =>
    have hx : ¬ (x.2 > s.best_score) := not_lt.mpr (h x (List.mem_cons_self x l))
    simp only [List.foldl_cons, sweepStep, hx, if_neg, not_false_iff]
    exact ih fun y hy => h y (List.mem_cons_of_mem x hy)

theorem le_maxScore (l : List (P × ℚ)) (b : ℚ) : b ≤ maxScore b l := by
  induction l generalizing b with
  | nil => exact le_refl b
  | cons x l ih =>
    calc b ≤ max b x.2 := le_max_left b x.2
      _ ≤ maxScore (max b x.2) l := ih (max b x.2)

theorem snd_le_maxScore (l : List (P × ℚ)) (b : ℚ) (x : P × ℚ) (hx : x ∈ l) :
    x.2 ≤ maxScore b l := by
  induction l generalizing b with
  | nil => cases hx
  | cons y l ih =>
    rcases List.mem_cons.mp hx with h | h
    · subst h
      calc x.2 ≤ max b x.2 := le_max_right b x.2
        _ ≤ maxScore (max b x.2) l := le_maxScore l (max b x.2)
    · exact ih (max b y.2) h

theorem maxScore_attained (l : List (P × ℚ)) (b : ℚ) (h : b < maxScore b l) :
    ∃ x ∈ l, x.2 = maxScore b l := by
  induction l generalizing b with
  | nil => exact absurd h (lt_irrefl b)
  | cons x l ih =>
    by_cases hlt : max b x.2 < maxScore (max b x.2) l
    · obtain ⟨y, hy, hy2⟩ := ih (max b x.2) hlt
      exact ⟨y, List.mem_cons_of_mem x hy, hy2⟩
    · have h1 : maxScore (max b x.2) l = max b x.2 :=
        le_antisymm (not_lt.mp hlt) (le_maxScore l (max b x.2))
      have h2 : maxScore b (x :: l) = max b x.2 := h1
      by_cases hbx : b ≤ x.2
      · refine ⟨x, List.mem_cons_self x l, ?_⟩
        rw [h2, max_eq_right hbx]
      · exfalso
        rw [h2, max_eq_left (le_of_not_le hbx)] at h
        exact lt_irrefl b h

theorem maxScore_cons (b : ℚ) (x : P × ℚ) (l : List (P × ℚ)) :
    maxScore b (x :: l) = maxScore (max b x.2) l := rfl

theorem foldl_sweepStep_best_params (l : List (P × ℚ)) (s : SweepState P)
    (h : s.best_score < maxScore s.best_score l) :
    (l.foldl sweepStep s).best_params =
      (l.find? fun x => decide (x.2 = maxScore s.best_score l)).map Prod.fst := by
  induction l generalizing s with
  | nil => exact absurd h (lt_irrefl _)
  | cons x l ih =>
    rw [maxScore_cons] at h ⊢
    by_cases hx : x.2 > s.best_score
    · have hs1 : sweepStep s x = ⟨some x.1, x.2⟩ := by simp [sweepStep, hx]
      have hmax : max s.best_score x.2 = x.2 := max_eq_right hx.le
      rw [hmax] at h ⊢
      by_cases hxM : x.2 = maxScore x.2 l
      · have hall : ∀ y ∈ l, y.2 ≤ x.2 := by
          intro y hy
          rw [hxM]
          exact snd_le_maxScore l x.2 y hy
        have hfold : l.foldl sweepStep (⟨some x.1, x.2⟩ : SweepState P) = ⟨some x.1, x.2⟩ :=
          foldl_sweepStep_of_forall_le l _ hall
        rw [List.foldl_cons, hs1, hfold, List.find?_cons_of_pos]
        · rfl
        · simpa using hxM
      · have hlt : x.2 < maxScore x.2 l := lt_of_le_of_ne (le_maxScore l x.2) hxM
        have hih := ih (⟨some x.1, x.2⟩ : SweepState P) hlt
        rw [List.foldl_cons, hs1, hih, List.find?_cons_of_neg]
        simpa using hxM
    · have hs1 : sweepStep s x = s := by simp [sweepStep, hx]
      have hmax : max s.best_score x.2 = s.best_score := max_eq_left (le_of_not_lt hx)
      rw [hmax] at h ⊢
      have hih := ih s h
      rw [List.foldl_cons, hs1, hih, List.find?_cons_of_neg]
      have hne : x.2 ≠ maxScore s.best_score l :=
        ne_of_lt (lt_of_le_of_lt (le_of_not_lt hx) h)
      simpa using hne

/-! ### Claim theorems about the bagging loop -/

/-- Claim C2: when no combination's score strictly exceeds the initial
floor, the bagging sweep leaves the best combination unset (no winner)
and the best score stays at the floor — no fabricated result. -/
theorem baggingSweep_no_winner (floor : ℚ) (l : List (P × ℚ))
    (h : ∀ x ∈ l, x.2 ≤ floor) :
    (baggingSweep floor l).best_params = none ∧
    (baggingSweep floor l).best_score = floor := by
  have hfold : baggingSweep floor l = sweepInit floor :=
    foldl_sweepStep_of_forall_le l (sweepInit floor) h
  rw [hfold]
  exact ⟨rfl, rfl⟩

/-- Witness for C2: the spec's own example, grid `[{leaf:1}]` with score
0.3 against floor 0.5, produces no winner. -/
theorem baggingSweep_no_winner_witness :
    (∀ x ∈ [((1:ℕ), (3:ℚ)/10)], x.2 ≤ 1/2) ∧
    ((baggingSweep (1/2) [((1:ℕ), (3:ℚ)/10)]).best_params = none ∧
     (baggingSweep (1/2) [((1:ℕ), (3:ℚ)/10)]).best_score = 1/2) :=
  ⟨by intro x hx; fin_cases hx; norm_num,
   baggingSweep_no_winner (1/2) [((1:ℕ), (3:ℚ)/10)]
     (by intro x hx; fin_cases hx; norm_num)⟩

/-- Claim C4: the improvement test is a strict greater-than comparison —
a pair whose score merely equals the current best leaves the state
unchanged — and consequently, among several combinations attaining the
maximum score, the first one encountered is the one retained: the
returned combination is the first list entry whose score equals the
running maximum. -/
theorem baggingSweep_strict_first_seen (floor : ℚ) (l : List (P × ℚ))
    (s : SweepState P) (q : P) (h : floor < maxScore floor l) :
    sweepStep s (q, s.best_score) = s ∧
    (baggingSweep floor l).best_score = maxScore floor l ∧
    (baggingSweep floor l).best_params =
      (l.find? fun x => decide (x.2 = maxScore floor l)).map Prod.fst := by
  refine ⟨by simp [sweepStep], ?_, ?_⟩
  · exact foldl_sweepStep_best_score l (sweepInit floor)
  · exact foldl_sweepStep_best_params l (sweepInit floor) h

/-- Witness for C4: two combinations tie at score 0.9 above floor 0.5;
the first one (combination 5) is retained, and a pair scoring exactly
the current best leaves the state unchanged. -/
theorem baggingSweep_strict_first_seen_witness :
    ((1:ℚ)/2 < maxScore (1/2) [((5:ℕ), (9:ℚ)/10), (7, 9/10)]) ∧
    (sweepStep (⟨some 3, 2/5⟩ : SweepState ℕ) (4, (⟨some 3, 2/5⟩ : SweepState ℕ).best_score) =
        (⟨some 3, 2/5⟩ : SweepState ℕ) ∧
      (baggingSweep (1/2) [((5:ℕ), (9:ℚ)/10), (7, 9/10)]).best_score =
        maxScore (1/2) [((5:ℕ), (9:ℚ)/10), (7, 9/10)] ∧
      (baggingSweep (1/2) [((5:ℕ), (9:ℚ)/10), (7, 9/10)]).best_params =
        ([((5:ℕ), (9:ℚ)/10), (7, 9/10)].find? fun x =>
          decide (x.2 = maxScore (1/2) [((5:ℕ), (9:ℚ)/10), (7, 9/10)])).map Prod.fst) :=
  ⟨by norm_num [maxScore, List.foldl],
   baggingSweep_strict_first_seen (1/2) [((5:ℕ), (9:ℚ)/10), (7, 9/10)]
     (⟨some 3, 2/5⟩ : SweepState ℕ) 4 (by norm_num [maxScore, List.foldl])⟩

theorem foldl_fits (l : List (P × ℚ)) (s : SweepState P) (acc : List P) :
    (l.foldl (fun a x => (sweepStep a.1 x, a.2 ++ [x.1])) (s, acc)).2 =
      acc ++ l.map Prod.fst := by
  induction l generalizing s acc with
  | nil => simp
  | cons x l ih =>
    rw [List.foldl_cons, ih]
    simp

/-- Claim C5: a grid of N combinations triggers exactly N fit
invocations — the trace of fitted combinations is exactly the grid, in
order, so none is skipped and none is fitted twice. -/
theorem baggingSweep_fits_each_once (floor : ℚ) (l : List (P × ℚ)) :
    (baggingSweepFits floor l).2 = l.map Prod.fst ∧
    (baggingSweepFits floor l).2.length = l.length := by
  have h : (baggingSweepFits floor l).2 = l.map Prod.fst := by
    have := foldl_fits l (sweepInit floor) ([] : List P)
    simpa [baggingSweepFits] using this
  exact ⟨h, by rw [h, List.length_map]⟩

/-- Claim C6: the sweep is deterministic — two score oracles that agree
on every grid combination (as fixed seeds and a fixed training set
guarantee) give the same best combination and best score. -/
theorem runSweep_deterministic (floor : ℚ) (grid : List P) (s₁ s₂ : P → ℚ)
    (h : ∀ g ∈ grid, s₁ g = s₂ g) :
    runSweep floor grid s₁ = runSweep floor grid s₂ := by
  unfold runSweep
  congr 1
  exact List.map_congr_left fun g hg => by rw [h g hg]

/-- Witness for C6: two oracles that agree on the grid `[1, 2]` (but
differ elsewhere) give identical sweep results. -/
theorem runSweep_deterministic_witness :
    (∀ g ∈ [1, 2], (fun g => (g : ℚ)/2) g = (fun g => if g ≤ 2 then (g : ℚ)/2 else 0) g) ∧
    runSweep (1/2) [1, 2] (fun g => (g : ℚ)/2) =
      runSweep (1/2) [1, 2] (fun g => if g ≤ 2 then (g : ℚ)/2 else 0) :=
  ⟨by intro g hg; fin_cases hg <;> norm_num,
   runSweep_deterministic (1/2) [1, 2] (fun g => (g : ℚ)/2)
     (fun g => if g ≤ 2 then (g : ℚ)/2 else 0)
     (by intro g hg; fin_cases hg <;> norm_num)⟩

/-! ### The random-forest grid-search loop -/

theorem foldl_rfStep_best_score (l : List (P × ℚ)) (s : RFState P) :
    (l.foldl rfStep s).best_score = s.best_score := by
  induction l generalizing s with
  | nil => rfl
  | cons x l ih =>
    rw [List.foldl_cons, ih]
    by_cases h : x.2 > s.best_score <;> simp [rfStep, h]

theorem rfSweep_char (l : List (P × ℚ)) :
    rfSweep l =
      match l.reverse.find? (fun x => decide ((1:ℚ)/2 < x.2)) with
      | some x => { best_score := 1/2, best_rfc_score := some x.2, best_rfc_params := some x.1 }
      | none => { best_score := 1/2, best_rfc_score := none, best_rfc_params := none } := by
  induction l using List.reverseRecOn with
  | nil => rfl
  | append_singleton l x ih =>
    have hth : (rfSweep l).best_score = 1/2 :=
      foldl_rfStep_best_score l { best_score := 1/2, best_rfc_score := none, best_rfc_params := none }
    have hfold : rfSweep (l ++ [x]) = rfStep (rfSweep l) x := by
      simp [rfSweep, List.foldl_append]
    rw [hfold, List.reverse_append, List.reverse_singleton, List.singleton_append]
    by_cases h : (1:ℚ)/2 < x.2
    · rw [List.find?_cons_of_pos _ (by simpa using h)]
      have hstep : rfStep (rfSweep l) x =
          { rfSweep l with best_rfc_score := some x.2, best_rfc_params := some x.1 } := by
        rw [rfStep, if_pos]
        rw [hth]
        exact h
      rw [hstep]
      refine RFState.ext ?_ rfl rfl
      simpa using hth
    · rw [List.find?_cons_of_neg _ (by simpa using h)]
      have hstep : rfStep (rfSweep l) x = rfSweep l := by
        rw [rfStep, if_neg]
        rw [hth]
        exact h
      rw [hstep, ih]

/-- Claim C10: in the random-forest sweep the comparison threshold
`best_score` stays at its initial value 0.5 for the whole loop, and the
reported pair (`best_rfc_score`, `best_rfc_params`) is the score and
combination of the last combination in grid order whose score strictly
exceeds 0.5 — the first such pair of the reversed grid — regardless of
whether an earlier combination scored higher. -/
theorem rfSweep_keeps_last_above_floor (l : List (P × ℚ)) :
    (rfSweep l).best_score = 1/2 ∧
    (rfSweep l).best_rfc_params =
      (l.reverse.find? fun x => decide ((1:ℚ)/2 < x.2)).map Prod.fst ∧
    (rfSweep l).best_rfc_score =
      (l.reverse.find? fun x => decide ((1:ℚ)/2 < x.2)).map Prod.snd := by
  rw [rfSweep_char l]
  cases hfind : l.reverse.find? fun x => decide ((1:ℚ)/2 < x.2) with
  | none => exact ⟨rfl, rfl, rfl⟩
  | some x => exact ⟨rfl, rfl, rfl⟩

/-- Claim C1 (evaluation of the code at a failing input): on out-of-bag
scores 0.9 then 0.6, both above the floor 0.5, the random-forest sweep
reports combination 1 with score 0.6 — the last combination above the
floor — although the maximum score encountered was 0.9, produced by
combination 0.  The comparison variable `best_score` is never updated,
so every score above 0.5 overwrites the reported pair. -/
theorem rfSweep_misses_maximum :
    (rfSweep [((0:ℕ), (9:ℚ)/10), (1, 3/5)]).best_rfc_score = some (3/5) ∧
    (rfSweep [((0:ℕ), (9:ℚ)/10), (1, 3/5)]).best_rfc_params = some 1 ∧
    maxScore (1/2) [((0:ℕ), (9:ℚ)/10), (1, 3/5)] = 9/10 := by
  norm_num [rfSweep, rfStep, maxScore, List.foldl]

/-- Claim C3 (evaluation of the code at a failing input): in the
random-forest sweep the retained reported score is not monotone — after
the first iteration it is 0.8, after the second it has decreased to
0.6, because the second score 0.6 still exceeds the never-updated
threshold 0.5. -/
theorem rfSweep_reported_score_decreases :
    (rfSweep [((0:ℕ), (4:ℚ)/5)]).best_rfc_score = some (4/5) ∧
    (rfSweep [((0:ℕ), (4:ℚ)/5), (1, 3/5)]).best_rfc_score = some (3/5) ∧
    (3:ℚ)/5 < 4/5 := by
  norm_num [rfSweep, rfStep, List.foldl]

/-! ### The boosted-tree grid-search loop -/

/-- A concrete pair of score oracles on the grid `[0, 1]`: training
accuracy ranks combination 0 first (1 versus 0.9) while the validation
(out-of-bag / held-out) score ranks combination 1 first (0.8 versus
0.6) — the typical overfitting pattern. -/
def gbScores : FittedScores ℕ :=
  { score_on_train := fun bg => if bg = 0 then 1 else 9/10,
    oob_score := fun bg => if bg = 0 then 3/5 else 4/5 }

/-- Claim C8 (evaluation of the code at a failing input): the
boosted-tree loop compares `boost.score(X_train, y_train)` — the score
on the training set — so it retains combination 0, whose training
accuracy is highest, and its best score is that training accuracy; a
sweep reading the validation score instead would retain combination 1. -/
theorem boostSweep_reads_training_score :
    (boostSweep (1/2) [0, 1] gbScores).best_params = some 0 ∧
    (boostSweep (1/2) [0, 1] gbScores).best_score = gbScores.score_on_train 0 ∧
    (runSweep (1/2) [0, 1] gbScores.oob_score).best_params = some 1 := by
  norm_num [boostSweep, runSweep, baggingSweep, sweepStep, sweepInit, gbScores, List.foldl]

/-! ### The submission CSV writer -/

theorem range_map_getD (y : List Nat) :
    (List.range y.length).map (fun i => y.getD i 0) = y := by
  induction y with
  | nil => rfl
  | cons a t ih =>
    rw [List.length_cons, List.range_succ_eq_map, List.map_cons, List.map_map]
    have hcomp : ((fun i => (a :: t).getD i 0) ∘ Nat.succ) = fun i => t.getD i 0 := by
      funext i
      simp [List.getD_cons_succ]
    rw [hcomp, ih]
    rfl

/-- Claim C9 (amended): the output CSV is the header row
(Id, subscription) followed by exactly one id,label pair per
prediction, but row i is keyed by the 0-based position i of the
prediction — the sequence of keys is 0, 1, ..., N-1 — which coincides
with the test-set record identifiers only when those identifiers are
exactly 0, ..., N-1 in file order. -/
theorem writeSubmission_format (y : List Nat) :
    (writeSubmission y).header = ("Id", "subscription") ∧
    (writeSubmission y).rows.length = y.length ∧
    (writeSubmission y).rows.map Prod.fst = List.range y.length ∧
    (writeSubmission y).rows.map Prod.snd = y := by
  refine ⟨rfl, ?_, ?_, ?_⟩
  · simp [writeSubmission]
  · simp only [writeSubmission, List.map_map]
    have hcomp : (Prod.fst ∘ fun i => (i, y.getD i 0)) = fun i : Nat => i := rfl
    rw [hcomp]
    simp
  · simp only [writeSubmission, List.map_map]
    exact range_map_getD y

/-- Claim C9 counterexample: for a test set whose two records carry the
row identifiers 3 and 8 (the notebooks load the test CSV with the Id
column as index, so identifiers need not start at 0), the writer keys
the two prediction rows 0 and 1 — positions, not the record
identifiers. -/
theorem writeSubmission_keys_not_ids :
    (writeSubmission [0, 1]).rows = [(0, 0), (1, 1)] ∧
    (writeSubmission [0, 1]).rows.map Prod.fst ≠ [3, 8] := by
  constructor
  · rfl
  · decide

/-! ### Order (in)dependence of the sweep -/

/-- Claim C7 counterexample: two combinations tie at score 0.9 above the
floor 0.5; swapping their order in the sequence changes which
combination the sweep retains (the first of the tie wins), so the sweep
result is not invariant under permutation of the sequence. -/
theorem baggingSweep_order_dependent :
    ([((0:ℕ), (9:ℚ)/10), (1, 9/10)]).Perm [((1:ℕ), (9:ℚ)/10), (0, 9/10)] ∧
    baggingSweep (1/2) [((0:ℕ), (9:ℚ)/10), (1, 9/10)] ≠
      baggingSweep (1/2) [((1:ℕ), (9:ℚ)/10), (0, 9/10)] := by
  constructor
  · exact List.Perm.swap _ _ _
  · norm_num [baggingSweep, sweepStep, sweepInit, List.foldl]

theorem maxScore_perm (l₁ l₂ : List (P × ℚ)) (h : l₁.Perm l₂) :
    ∀ b, maxScore b l₁ = maxScore b l₂ := by
  induction h with
  | nil => intro b; rfl
  | cons x h ih =>
    intro b
    rw [maxScore_cons, maxScore_cons]
    exact ih _
  | swap x y l =>
    intro b
    rw [maxScore_cons, maxScore_cons, maxScore_cons, maxScore_cons, Max.right_comm]
  | trans h₁ h₂ ih₁ ih₂ =>
    intro b
    rw [ih₁ b, ih₂ b]

theorem baggingSweep_best_score (floor : ℚ) (l : List (P × ℚ)) :
    (baggingSweep floor l).best_score = maxScore floor l :=
  foldl_sweepStep_best_score l (sweepInit floor)

theorem baggingSweep_best_params (floor : ℚ) (l : List (P × ℚ))
    (h : floor < maxScore floor l) :
    (baggingSweep floor l).best_params =
      (l.find? fun x => decide (x.2 = maxScore floor l)).map Prod.fst :=
  foldl_sweepStep_best_params l (sweepInit floor) h

/-- Claim C7 (amended): for every permutation of the (combination,
score) sequence the best score is unchanged; and when no two
combinations share a score (so no ties exist) the whole result —
combination and score — is unchanged as well.  With ties, only which
tied combination is retained can depend on the order. -/
theorem baggingSweep_perm_invariant (floor : ℚ) (l₁ l₂ : List (P × ℚ))
    (h : l₁.Perm l₂) :
    (baggingSweep floor l₁).best_score = (baggingSweep floor l₂).best_score ∧
    ((l₁.map Prod.snd).Nodup → baggingSweep floor l₁ = baggingSweep floor l₂) := by
  have hMeq : maxScore floor l₂ = maxScore floor l₁ := (maxScore_perm l₁ l₂ h floor).symm
  have hscore : (baggingSweep floor l₁).best_score = (baggingSweep floor l₂).best_score := by
    rw [baggingSweep_best_score, baggingSweep_best_score, hMeq]
  refine ⟨hscore, fun hnd => ?_⟩
  by_cases hM : floor < maxScore floor l₁
  · have hM₂ : floor < maxScore floor l₂ := by rw [hMeq]; exact hM
    have hp₁ := baggingSweep_best_params floor l₁ hM
    have hp₂ := baggingSweep_best_params floor l₂ hM₂
    rw [hMeq] at hp₂
    have hfind₁ : ∃ x, x ∈ l₁ ∧ (decide (x.2 = maxScore floor l₁) : Bool) := by
      obtain ⟨a, ha, ha2⟩ := maxScore_attained l₁ floor hM
      exact ⟨a, ha, by simpa using ha2⟩
    have hfind₂ : ∃ x, x ∈ l₂ ∧ (decide (x.2 = maxScore floor l₁) : Bool) := by
      obtain ⟨a, ha, hp⟩ := hfind₁
      exact ⟨a, h.subset ha, hp⟩
    obtain ⟨a₁, ha₁⟩ := Option.isSome_iff_exists.mp (List.find?_isSome.mpr hfind₁)
    obtain ⟨a₂, ha₂⟩ := Option.isSome_iff_exists.mp (List.find?_isSome.mpr hfind₂)
    have ha₁mem : a₁ ∈ l₁ := List.mem_of_find?_eq_some ha₁
    have ha₁p : a₁.2 = maxScore floor l₁ := by simpa using List.find?_some ha₁
    have ha₂mem : a₂ ∈ l₂ := List.mem_of_find?_eq_some ha₂
    have ha₂p : a₂.2 = maxScore floor l₁ := by simpa using List.find?_some ha₂
    have hnd₂ : (l₂.map Prod.snd).Nodup := ((h.map Prod.snd).nodup_iff).mp hnd
    have haa : a₁ = a₂ :=
      List.inj_on_of_nodup_map hnd₂ (h.subset ha₁mem) ha₂mem (by rw [ha₁p, ha₂p])
    apply SweepState.ext
    · rw [hp₁, hp₂, ha₁, ha₂, haa]
    · exact hscore
  · have hM1 : maxScore floor l₁ = floor :=
      le_antisymm (not_lt.mp hM) (le_maxScore l₁ floor)
    have hall₁ : ∀ x ∈ l₁, x.2 ≤ floor := fun x hx => by
      have hle := snd_le_maxScore l₁ floor x hx
      rwa [hM1] at hle
    have hall₂ : ∀ x ∈ l₂, x.2 ≤ floor := fun x hx => hall₁ x (h.symm.subset hx)
    rw [show baggingSweep floor l₁ = sweepInit floor from
          foldl_sweepStep_of_forall_le l₁ (sweepInit floor) hall₁,
        show baggingSweep floor l₂ = sweepInit floor from
          foldl_sweepStep_of_forall_le l₂ (sweepInit floor) hall₂]

/-- Witness for the amended C7: a two-element grid with distinct scores
0.6 and 0.8; reversing the order leaves both the best score and the
retained combination unchanged. -/
theorem baggingSweep_perm_invariant_witness :
    ([((0:ℕ), (3:ℚ)/5), (1, 4/5)]).Perm [((1:ℕ), (4:ℚ)/5), (0, 3/5)] ∧
    ((baggingSweep (1/2) [((0:ℕ), (3:ℚ)/5), (1, 4/5)]).best_score =
        (baggingSweep (1/2) [((1:ℕ), (4:ℚ)/5), (0, 3/5)]).best_score ∧
      (([((0:ℕ), (3:ℚ)/5), (1, 4/5)].map Prod.snd).Nodup →
        baggingSweep (1/2) [((0:ℕ), (3:ℚ)/5), (1, 4/5)] =
          baggingSweep (1/2) [((1:ℕ), (4:ℚ)/5), (0, 3/5)])) :=
  ⟨List.Perm.swap _ _ _,
   baggingSweep_perm_invariant (1/2) [((0:ℕ), (3:ℚ)/5), (1, 4/5)]
     [((1:ℕ), (4:ℚ)/5), (0, 3/5)] (List.Perm.swap _ _ _)⟩
